import Mathlib

/-!
Verification of the quizazz quiz-session engine.

This file shallowly embeds the engine of the quizazz repository:

* `app/src/lib/utils/random.ts` — `shuffle` (Fisher-Yates) and
  `weightedRandomIndex`;
* `app/src/lib/engine/selection.ts` — `selectQuestions` (weighted sampling
  without replacement);
* `app/src/lib/engine/presentation.ts` — `presentAnswers`;
* `app/src/lib/engine/lifecycle.ts` — the session lifecycle state machine
  (`startQuiz`, `submitAnswer`, `editAnsweredQuestion`, `retakeQuiz`,
  `newQuiz`/`quitQuiz`, `backToQuiz`, `showAnsweredQuestions`, review
  navigation, and `finalizeQuiz`).

Randomness: every call to `Math.random()` in the source is modelled by an
explicit oracle argument, a rational `r` with `0 ≤ r < 1`;
`Math.floor(Math.random() * n)` becomes `floorRand r n`.  Functions that draw
several times take a list of rationals.  Properties quantified over the
oracles hold for every possible random outcome.

Dates (`Date.now()`) are modelled by passing the elapsed delta of each
operation as an explicit natural-number argument.

The mutable Svelte stores (`quizSession`, `viewMode`, `reviewIndex`) and the
module-level variable `frontierIndex` become fields of an explicit
`EngineState` record; each exported lifecycle function becomes a state
transformer, and a run of the engine is a fold of operations over the initial
state.  Database side effects (`updateScore`, `recordAnswer`) are modelled as
an append-only event list inside the state.
-/

/-- The four answer categories of `Answer['category']` in `app/src/lib/types`. -/
inductive Category where
  | correct
  | partiallyCorrect
  | incorrect
  | ridiculous
deriving DecidableEq

/-- An authored answer (`Answer` in `app/src/lib/types`). -/
structure Answer where
  text : String
  explanation : String
  category : Category
deriving DecidableEq

/-- An authored question (`Question` in `app/src/lib/types`); the scope
fields (`topicId`, `subtopic`) play no role in the verified components and
are omitted. -/
structure Question where
  id : String
  tags : List String
  answers : List Answer
deriving DecidableEq

/-- A per-question cumulative score row (`QuestionScore`). -/
structure QuestionScore where
  questionId : String
  cumulativeScore : Int
deriving DecidableEq

/-- An answer enriched with a display label (`PresentedAnswer`). -/
structure PresentedAnswer where
  text : String
  explanation : String
  category : Category
  label : String
deriving DecidableEq

/-- Modelled from the spec: the source file `app/src/lib/engine/scoring.ts`
is not part of the available sources (only its tests and its callers are).
Spec §4.4: `scoreAnswer(category) → pointDelta`, pure lookup
`correct→+1, partially_correct→-2, incorrect→-5, ridiculous→-10`;
the repository's `tests/engine/scoring.test.ts` asserts exactly these four
values. -/
def scoreAnswer : Category → Int
  | Category.correct => 1
  | Category.partiallyCorrect => -2
  | Category.incorrect => -5
  | Category.ridiculous => -10

/-! ## Random utilities (`app/src/lib/utils/random.ts`) -/

/-- `Math.floor(r * n)` for an oracle draw `r` (in `[0,1)` when it models
`Math.random()`), truncated to a natural number. -/
def floorRand (r : ℚ) (n : ℕ) : ℕ := (Int.floor (r * (n : ℚ))).toNat

/-- The swap `[result[i], result[j]] = [result[j], result[i]]` inside the
Fisher-Yates loop.  When either index is out of range the list is returned
unchanged; in the source both indices are always in range because the draw
is in `[0,1)`. -/
def swapL {α : Type} (xs : List α) (i j : ℕ) : List α :=
  match xs[i]?, xs[j]? with
  | some a, some b => (xs.set i b).set j a
  | _, _ => xs

/-- The Fisher-Yates loop of `shuffle`, counting `i` down; one oracle draw is
consumed per iteration (the source always has a draw available, so the
oracle-exhausted case is unreachable on faithful inputs). -/
def fyAux {α : Type} : List α → ℕ → List ℚ → List α
  | xs, 0, _ => xs
  | xs, _ + 1, [] => xs
  | xs, i + 1, r :: rs => fyAux (swapL xs (i + 1) (floorRand r (i + 2))) i rs

/-- `shuffle(array)`: Fisher-Yates over a copy of the input, one draw per
loop iteration. -/
def shuffle {α : Type} (rs : List ℚ) (xs : List α) : List α :=
  fyAux xs (xs.length - 1) rs

/-- The scanning loop of `weightedRandomIndex`: subtract weights from `r`
until it drops to `≤ 0`, returning the index that crossed the boundary. -/
def wriAux : List ℚ → ℚ → Option ℕ
  | [], _ => none
  | w :: ws, r => if r - w ≤ 0 then some 0 else (wriAux ws (r - w)).map (· + 1)

/-- `weightedRandomIndex(weights)` with the random draw `r` made explicit:
`r * total` is scanned down the weights, and `weights.length - 1` is the
fallback when the loop finishes without triggering. -/
def weightedRandomIndex (r : ℚ) (ws : List ℚ) : ℕ :=
  (wriAux ws (r * ws.sum)).getD (ws.length - 1)

theorem length_swapL {α : Type} (xs : List α) (i j : ℕ) :
    (swapL xs i j).length = xs.length := by
  unfold swapL
  cases hi : xs[i]? with
  | none => rfl
  | some a =>
    cases hj : xs[j]? with
    | none => rfl
    | some b => simp [List.length_set]

theorem cons_set_perm {α : Type} :
    ∀ (t : List α) (m : ℕ) (b x : α), t[m]? = some b →
      List.Perm (b :: t.set m x) (x :: t)
  | [], m, _, _, h => by simp at h
  | c :: t, 0, b, x, h => by
    simp only [List.getElem?_cons_zero, Option.some.injEq] at h
    subst h
    first
    | simpa using List.Perm.swap x b t
    | simpa using List.Perm.swap x c t
  | c :: t, m + 1, b, x, h => by
    simp only [List.getElem?_cons_succ] at h
    have ih := cons_set_perm t m b x h
    exact ((List.Perm.swap c b _).trans (List.Perm.cons c ih)).trans
      (List.Perm.swap x c t)

theorem set_set_perm_of {α : Type} :
    ∀ (xs : List α) (i j : ℕ) (a b : α), xs[i]? = some a → xs[j]? = some b →
      List.Perm ((xs.set i b).set j a) xs
  | [], i, _, _, _, hi, _ => by simp at hi
  | x :: t, 0, 0, a, b, hi, hj => by
    simp only [List.getElem?_cons_zero, Option.some.injEq] at hi hj
    subst hi; subst hj
    simp
  | x :: t, 0, m + 1, a, b, hi, hj => by
    simp only [List.getElem?_cons_zero, Option.some.injEq,
      List.getElem?_cons_succ] at hi hj
    subst hi
    first
    | simpa using cons_set_perm t m b a hj
    | simpa using cons_set_perm t m b x hj
  | x :: t, k + 1, 0, a, b, hi, hj => by
    simp only [List.getElem?_cons_zero, Option.some.injEq,
      List.getElem?_cons_succ] at hi hj
    subst hj
    first
    | simpa using cons_set_perm t k a b hi
    | simpa using cons_set_perm t k a x hi
  | x :: t, k + 1, m + 1, a, b, hi, hj => by
    simp only [List.getElem?_cons_succ] at hi hj
    simpa using List.Perm.cons x (set_set_perm_of t k m a b hi hj)

theorem swapL_perm {α : Type} (xs : List α) (i j : ℕ) :
    List.Perm (swapL xs i j) xs := by
  unfold swapL
  cases hi : xs[i]? with
  | none => exact List.Perm.refl xs
  | some a =>
    cases hj : xs[j]? with
    | none => exact List.Perm.refl xs
    | some b => exact set_set_perm_of xs i j a b hi hj

theorem fyAux_perm {α : Type} :
    ∀ (i : ℕ) (xs : List α) (rs : List ℚ), List.Perm (fyAux xs i rs) xs
  | 0, xs, rs => by cases rs <;> exact List.Perm.refl xs
  | _ + 1, xs, [] => List.Perm.refl xs
  | i + 1, xs, r :: rs =>
    (fyAux_perm i _ rs).trans (swapL_perm xs (i + 1) (floorRand r (i + 2)))

/-- `shuffle` returns a permutation of its input, whatever the draws. -/
theorem shuffle_perm {α : Type} (rs : List ℚ) (xs : List α) :
    List.Perm (shuffle rs xs) xs :=
  fyAux_perm (xs.length - 1) xs rs

theorem shuffle_length {α : Type} (rs : List ℚ) (xs : List α) :
    (shuffle rs xs).length = xs.length :=
  (shuffle_perm rs xs).length_eq

theorem wriAux_lt :
    ∀ (ws : List ℚ) (r : ℚ) (i : ℕ), wriAux ws r = some i → i < ws.length
  | [], _, _, h => by simp [wriAux] at h
  | w :: ws, r, i, h => by
    unfold wriAux at h
    by_cases hc : r - w ≤ 0
    · simp only [hc, if_pos] at h
      cases h
      simp
    · simp only [hc, if_neg, not_false_iff, Option.map_eq_some'] at h
      obtain ⟨j, hj, rfl⟩ := h
      have := wriAux_lt ws (r - w) j hj
      simpa using Nat.succ_lt_succ this

/-- For a non-empty weight list the scan-with-fallback always lands in
range, for every value of the random draw. -/
theorem weightedRandomIndex_lt (r : ℚ) (ws : List ℚ) (h : ws ≠ []) :
    weightedRandomIndex r ws < ws.length := by
  unfold weightedRandomIndex
  cases hw : wriAux ws (r * ws.sum) with
  | some i => simpa using wriAux_lt ws (r * ws.sum) i hw
  | none =>
    have : 0 < ws.length := List.length_pos.mpr h
    simpa using Nat.sub_lt this Nat.one_pos

/-- `Math.floor(r * n)` is in `[0, n)` when `0 ≤ r < 1` and `n > 0`. -/
theorem floorRand_lt (r : ℚ) (n : ℕ) (h0 : 0 ≤ r) (h1 : r < 1) (hn : 0 < n) :
    floorRand r n < n := by
  unfold floorRand
  have hmul : r * (n : ℚ) < (n : ℚ) := by
    have hnq : (0 : ℚ) < (n : ℚ) := by exact_mod_cast hn
    nlinarith
  have hfl : Int.floor (r * (n : ℚ)) < (n : ℤ) := by
    rw [Int.floor_lt]
    exact_mod_cast hmul
  omega

/-! ## Selection engine (`app/src/lib/engine/selection.ts`) -/

/-- The tag pre-filter: with a non-empty `selectedTags`, keep questions whose
tags intersect it (OR semantics); otherwise keep every question. -/
def tagFilter (questions : List Question) (selectedTags : List String) : List Question :=
  if 0 < selectedTags.length then
    questions.filter (fun q => q.tags.any (fun t => selectedTags.contains t))
  else
    questions

/-- `scoreMap.get(q.id) ?? 0`.  The source builds a JS `Map` from the score
rows; for duplicate `questionId`s a JS `Map` keeps the last binding, hence
the lookup on the reversed list. -/
def scoreOf (scores : List QuestionScore) (id : String) : Int :=
  match scores.reverse.find? (fun s => s.questionId == id) with
  | some s => s.cumulativeScore
  | none => 0

/-- `Math.max(...scores.map(s => s.cumulativeScore))` when the snapshot is
non-empty, else `0`. -/
def maxScoreOf (scores : List QuestionScore) : Int :=
  match scores.map (fun s => s.cumulativeScore) with
  | [] => 0
  | x :: xs => xs.foldl max x

/-- The weight `maxScore - (scoreMap.get(q.id) ?? 0) + 1` that
`selectQuestions` assigns to a candidate question. -/
def weightOf (scores : List QuestionScore) (q : Question) : Int :=
  maxScoreOf scores - scoreOf scores q.id + 1

/-- The initial candidate pool of `selectQuestions`: each filtered question
paired with its weight. -/
def selPool (questions : List Question) (scores : List QuestionScore)
    (selectedTags : List String) : List (Question × Int) :=
  (tagFilter questions selectedTags).map (fun q => (q, weightOf scores q))

/-- The drawing loop of `selectQuestions`: draw an index weighted by the
current weights, move that entry from the pool to the output, repeat.  One
oracle draw is consumed per iteration (`headD 0` supplies a draw if the
oracle list is exhausted, which cannot happen on faithful inputs). -/
def selAux : List (Question × Int) → ℕ → List ℚ → List Question
  | _, 0, _ => []
  | pool, n + 1, rs =>
    match pool[weightedRandomIndex (rs.headD 0) (pool.map (fun p => (p.2 : ℚ)))]? with
    | some item =>
      item.1 ::
        selAux
          (pool.eraseIdx (weightedRandomIndex (rs.headD 0) (pool.map (fun p => (p.2 : ℚ)))))
          n rs.tail
    | none => []

/-- `selectQuestions(questions, scores, count, selectedTags)` with the random
draws made explicit. -/
def selectQuestions (questions : List Question) (scores : List QuestionScore)
    (count : ℕ) (selectedTags : List String) (rs : List ℚ) : List Question :=
  let pool := selPool questions scores selectedTags
  selAux pool (min count pool.length) rs

theorem selAux_length :
    ∀ (pool : List (Question × Int)) (n : ℕ) (rs : List ℚ), n ≤ pool.length →
      (selAux pool n rs).length = n
  | _, 0, _, _ => rfl
  | pool, n + 1, rs, h => by
    have hpool : pool ≠ [] := by
      intro hnil
      rw [hnil] at h
      simp at h
    have hmap : (pool.map (fun p => ((p.2 : ℚ)))) ≠ [] := by
      simpa using hpool
    have hidx :
        weightedRandomIndex (rs.headD 0) (pool.map (fun p => (p.2 : ℚ))) <
          pool.length := by
      have := weightedRandomIndex_lt (rs.headD 0) _ hmap
      simpa using this
    have herase :
        (pool.eraseIdx
          (weightedRandomIndex (rs.headD 0) (pool.map (fun p => (p.2 : ℚ))))).length =
          pool.length - 1 := by
      rw [List.length_eraseIdx, if_pos hidx]
    have hrec := selAux_length
      (pool.eraseIdx
        (weightedRandomIndex (rs.headD 0) (pool.map (fun p => (p.2 : ℚ)))))
      n rs.tail (by omega)
    unfold selAux
    rw [List.getElem?_eq_getElem hidx]
    simpa using hrec

/-- Cardinality: the selection returns `min(count, filteredPool.length)`
questions, for every score snapshot and every random outcome. -/
theorem selectQuestions_length (questions : List Question)
    (scores : List QuestionScore) (count : ℕ) (selectedTags : List String)
    (rs : List ℚ) :
    (selectQuestions questions scores count selectedTags rs).length =
      min count (tagFilter questions selectedTags).length := by
  unfold selectQuestions
  have hlen : (selPool questions scores selectedTags).length =
      (tagFilter questions selectedTags).length := by
    simp [selPool]
  rw [selAux_length _ _ rs (by omega), hlen]

theorem map_eraseIdx {α β : Type} (f : α → β) :
    ∀ (xs : List α) (i : ℕ), (xs.eraseIdx i).map f = (xs.map f).eraseIdx i
  | [], _ => rfl
  | _ :: _, 0 => rfl
  | x :: xs, i + 1 => by
    simp only [List.eraseIdx_cons_succ, List.map_cons]
    rw [map_eraseIdx f xs i]

theorem perm_cons_eraseIdx_of {α : Type} :
    ∀ (xs : List α) (i : ℕ) (a : α), xs[i]? = some a →
      List.Perm xs (a :: xs.eraseIdx i)
  | [], _, _, h => by simp at h
  | x :: t, 0, a, h => by
    simp only [List.getElem?_cons_zero, Option.some.injEq] at h
    subst h
    simp [List.eraseIdx]
  | x :: t, i + 1, a, h => by
    simp only [List.getElem?_cons_succ] at h
    have ih := perm_cons_eraseIdx_of t i a h
    simp only [List.eraseIdx_cons_succ]
    exact (List.Perm.cons x ih).trans (List.Perm.swap a x (t.eraseIdx i))

theorem subperm_cons_cons {α : Type} (a : α) {l m : List α}
    (h : l.Subperm m) : (a :: l).Subperm (a :: m) := by
  obtain ⟨l0, hperm, hsub⟩ := h
  exact ⟨a :: l0, hperm.cons a, hsub.cons₂ a⟩

theorem subperm_of_perm_right {α : Type} {l m k : List α}
    (h : l.Subperm m) (hp : List.Perm m k) : l.Subperm k :=
  h.trans hp.subperm

/-- Every drawn question comes from the pool, and each is removed before
the next draw: the output is a sub-permutation of the pool's questions. -/
theorem selAux_subperm :
    ∀ (pool : List (Question × Int)) (n : ℕ) (rs : List ℚ),
      (selAux pool n rs).Subperm (pool.map Prod.fst)
  | _, 0, _ => List.nil_subperm
  | pool, n + 1, rs => by
    unfold selAux
    cases hg :
        pool[weightedRandomIndex (rs.headD 0) (pool.map (fun p => (p.2 : ℚ)))]? with
    | none => exact List.nil_subperm
    | some item =>
      have ih := selAux_subperm
        (pool.eraseIdx (weightedRandomIndex (rs.headD 0) (pool.map (fun p => (p.2 : ℚ)))))
        n rs.tail
      rw [map_eraseIdx] at ih
      have hmem :
          (pool.map Prod.fst)[
              weightedRandomIndex (rs.headD 0) (pool.map (fun p => (p.2 : ℚ)))]? =
            some item.1 := by
        rw [List.getElem?_map, hg]
        rfl
      have hperm := perm_cons_eraseIdx_of (pool.map Prod.fst) _ _ hmem
      exact subperm_of_perm_right (subperm_cons_cons item.1 ih) hperm.symm

/-- Sampling without replacement: if the (filtered) pool has no duplicate
entries, neither does the selection. -/
theorem selectQuestions_nodup (questions : List Question)
    (scores : List QuestionScore) (count : ℕ) (selectedTags : List String)
    (rs : List ℚ) (h : (tagFilter questions selectedTags).Nodup) :
    (selectQuestions questions scores count selectedTags rs).Nodup := by
  have hsub := selAux_subperm (selPool questions scores selectedTags)
    (min count (selPool questions scores selectedTags).length) rs
  have hmap : (selPool questions scores selectedTags).map Prod.fst =
      tagFilter questions selectedTags := by
    simp only [selPool, List.map_map]
    exact List.map_id _
  rw [hmap] at hsub
  obtain ⟨l0, hperm, hsublist⟩ := hsub
  exact hperm.nodup (hsublist.nodup h)

theorem le_foldl_max (l : List Int) : ∀ b : Int, b ≤ l.foldl max b := by
  induction l with
  | nil => intro b; exact le_rfl
  | cons x xs ih =>
    intro b
    exact le_trans (le_max_left b x) (ih (max b x))

theorem mem_le_foldl_max (l : List Int) :
    ∀ (a b : Int), a ∈ l → a ≤ l.foldl max b := by
  induction l with
  | nil => intro a b h; simp at h
  | cons x xs ih =>
    intro a b h
    rcases List.mem_cons.mp h with rfl | hmem
    · exact le_trans (le_max_right b a) (le_foldl_max xs (max b a))
    · exact ih a (max b x) hmem

/-- Every score in the snapshot is at most `maxScoreOf`. -/
theorem le_maxScoreOf (scores : List QuestionScore) (s : QuestionScore)
    (h : s ∈ scores) : s.cumulativeScore ≤ maxScoreOf scores := by
  unfold maxScoreOf
  cases hm : scores.map (fun s => s.cumulativeScore) with
  | nil =>
    rcases scores with _ | ⟨t, ts⟩
    · simp at h
    · simp at hm
  | cons x xs =>
    have hmem : s.cumulativeScore ∈ scores.map (fun s => s.cumulativeScore) :=
      List.mem_map_of_mem _ h
    rw [hm] at hmem
    rcases List.mem_cons.mp hmem with heq | hmem2
    · rw [heq]; exact le_foldl_max xs x
    · exact mem_le_foldl_max xs _ x hmem2

/-- Claim C4 (amended): the weight `maxScore - score + 1` that
`selectQuestions` assigns is at least 1 for every candidate whose id occurs
in the snapshot, and for every candidate whenever the snapshot maximum is
non-negative (in particular whenever the snapshot is empty). -/
theorem weightOf_ge_one (scores : List QuestionScore) (q : Question)
    (h : (∃ s ∈ scores, s.questionId = q.id) ∨ 0 ≤ maxScoreOf scores) :
    1 ≤ weightOf scores q := by
  unfold weightOf scoreOf
  cases hfind : scores.reverse.find? (fun s => s.questionId == q.id) with
  | some s =>
    have hmem : s ∈ scores := List.mem_reverse.mp (List.mem_of_find?_eq_some hfind)
    have hle := le_maxScoreOf scores s hmem
    dsimp only
    omega
  | none =>
    rcases h with ⟨s, hmem, hid⟩ | hmax
    · have := List.find?_eq_none.mp hfind s (List.mem_reverse.mpr hmem)
      simp [hid] at this
    · dsimp only
      omega

/-- The argument arrays of `selectQuestions`, threaded through a
state-passing embedding of the call. -/
structure SelEnv where
  questions : List Question
  scores : List QuestionScore
deriving DecidableEq

/-- State-passing embedding of the drawing loop: the loop state carries the
argument arrays together with the internal `pool`, and `pool.splice(idx, 1)`
— the only mutating operation in `selectQuestions` — is an update of the
`pool` component alone. -/
def selLoopSt : SelEnv × List (Question × Int) → ℕ → List ℚ →
    List Question × (SelEnv × List (Question × Int))
  | st, 0, _ => ([], st)
  | (env, pool), n + 1, rs =>
    match pool[weightedRandomIndex (rs.headD 0) (pool.map (fun p => (p.2 : ℚ)))]? with
    | some item =>
      (item.1 ::
        (selLoopSt
          (env, pool.eraseIdx (weightedRandomIndex (rs.headD 0) (pool.map (fun p => (p.2 : ℚ)))))
          n rs.tail).1,
       (selLoopSt
          (env, pool.eraseIdx (weightedRandomIndex (rs.headD 0) (pool.map (fun p => (p.2 : ℚ)))))
          n rs.tail).2)
    | none => ([], (env, pool))

/-- State-passing embedding of `selectQuestions`: `filter`, `map`, the `Map`
construction and `Math.max` only read their operands and allocate fresh
values; the `pool` is freshly constructed by `filtered.map`, and the only
mutation (`splice`) targets it.  The final state of the argument arrays is
returned alongside the result. -/
def selectQuestionsSt (env : SelEnv) (count : ℕ) (selectedTags : List String)
    (rs : List ℚ) : List Question × SelEnv :=
  (
    (selLoopSt (env, selPool env.questions env.scores selectedTags)
      (min count (selPool env.questions env.scores selectedTags).length) rs).1,
    (selLoopSt (env, selPool env.questions env.scores selectedTags)
      (min count (selPool env.questions env.scores selectedTags).length) rs).2.1
  )

theorem selLoopSt_fst :
    ∀ (env : SelEnv) (pool : List (Question × Int)) (n : ℕ) (rs : List ℚ),
      (selLoopSt (env, pool) n rs).1 = selAux pool n rs
  | _, _, 0, _ => rfl
  | env, pool, n + 1, rs => by
    unfold selLoopSt selAux
    cases hg :
        pool[weightedRandomIndex (rs.headD 0) (pool.map (fun p => (p.2 : ℚ)))]? with
    | none => rfl
    | some item =>
      have ih := selLoopSt_fst env
        (pool.eraseIdx (weightedRandomIndex (rs.headD 0) (pool.map (fun p => (p.2 : ℚ)))))
        n rs.tail
      simpa using ih

theorem selLoopSt_env :
    ∀ (env : SelEnv) (pool : List (Question × Int)) (n : ℕ) (rs : List ℚ),
      (selLoopSt (env, pool) n rs).2.1 = env
  | _, _, 0, _ => rfl
  | env, pool, n + 1, rs => by
    unfold selLoopSt
    cases hg :
        pool[weightedRandomIndex (rs.headD 0) (pool.map (fun p => (p.2 : ℚ)))]? with
    | none => rfl
    | some item =>
      exact selLoopSt_env env
        (pool.eraseIdx (weightedRandomIndex (rs.headD 0) (pool.map (fun p => (p.2 : ℚ)))))
        n rs.tail

/-! ## Presentation engine (`app/src/lib/engine/presentation.ts`) -/

/-- The fixed label sequence `LABELS = ['a','b','c','d','e']`. -/
def LABELS : List String := ["a", "b", "c", "d", "e"]

/-- `question.answers.filter(a => a.category === 'correct')`. -/
def correctOf (q : Question) : List Answer :=
  q.answers.filter (fun a => decide (a.category = Category.correct))

/-- `question.answers.filter(a => a.category !== 'correct')`. -/
def othersOf (q : Question) : List Answer :=
  q.answers.filter (fun a => decide (¬a.category = Category.correct))

/-- `[chosenCorrect, ...chosenOthers]`.  `chosenCorrect` is
`correct[Math.floor(Math.random() * correct.length)]`; when the question has
no `correct` answer the source would produce a corrupt `undefined` entry —
the model drops the entry instead, and every theorem below assumes at least
one `correct` answer, as the upstream validator guarantees. -/
def combinedOf (q : Question) (answerCount : ℕ) (rc : ℚ) (rs1 : List ℚ) :
    List Answer :=
  ((correctOf q)[floorRand rc (correctOf q).length]?).toList ++
    (shuffle rs1 (othersOf q)).take (answerCount - 1)

/-- `presentAnswers(question, answerCount)` with the random draws explicit:
`rc` picks the correct answer, `rs1` shuffles the distractor pool, `rs2`
shuffles the combined list; labels are assigned positionally from `LABELS`
(out-of-range positions, impossible for `answerCount ≤ 5`, get `""` where
the source would yield `undefined`). -/
def presentAnswers (q : Question) (answerCount : ℕ) (rc : ℚ)
    (rs1 rs2 : List ℚ) : List PresentedAnswer :=
  (shuffle rs2 (combinedOf q answerCount rc rs1)).enum.map
    (fun p =>
      { text := p.2.text, explanation := p.2.explanation,
        category := p.2.category, label := LABELS.getD p.1 "" })

theorem countP_enumFrom {α : Type} (p : α → Bool) :
    ∀ (l : List α) (i : ℕ),
      (List.enumFrom i l).countP (fun q => p q.2) = l.countP p
  | [], _ => rfl
  | x :: t, i => by
    rw [List.enumFrom_cons]
    rw [List.countP_cons, List.countP_cons, countP_enumFrom p t (i + 1)]

theorem map_getD_enumFrom {β : Type} (L : List String) (d : String) :
    ∀ (xs : List β) (k : ℕ), k + xs.length ≤ L.length →
      (List.enumFrom k xs).map (fun p => L.getD p.1 d) =
        (L.drop k).take xs.length
  | [], k, _ => by simp
  | x :: t, k, h => by
    rw [List.enumFrom_cons, List.map_cons]
    have hk : k < L.length := by
      simp only [List.length_cons] at h
      omega
    have hrec := map_getD_enumFrom L d t (k + 1) (by
      simp only [List.length_cons] at h
      omega)
    rw [hrec]
    rw [List.getD_eq_getElem L d hk]
    rw [← List.getElem_cons_drop L k hk]
    simp only [List.length_cons, List.take_succ_cons]

/-- Claim C6 (amended): the `presentAnswers` contract under the corrected
precondition that the question supplies at least one `correct` answer and at
least `answerCount - 1` non-`correct` answers.  Then, for every
`answerCount ∈ {3,4,5}` and every random outcome, the output has length
`answerCount`, contains exactly one `correct` answer, and carries the labels
`"a", "b", …` in positional order. -/
theorem presentAnswers_spec (q : Question) (n : ℕ) (rc : ℚ) (rs1 rs2 : List ℚ)
    (hn : n = 3 ∨ n = 4 ∨ n = 5)
    (hrc0 : 0 ≤ rc) (hrc1 : rc < 1)
    (hcor : correctOf q ≠ [])
    (hoth : n - 1 ≤ (othersOf q).length) :
    (presentAnswers q n rc rs1 rs2).length = n ∧
      (presentAnswers q n rc rs1 rs2).countP
        (fun a => decide (a.category = Category.correct)) = 1 ∧
      (presentAnswers q n rc rs1 rs2).map (fun a => a.label) = LABELS.take n := by
  have hlen0 : 0 < (correctOf q).length := List.length_pos.mpr hcor
  have hidx : floorRand rc (correctOf q).length < (correctOf q).length :=
    floorRand_lt rc _ hrc0 hrc1 hlen0
  have hc : (correctOf q)[floorRand rc (correctOf q).length]? =
      some (correctOf q)[floorRand rc (correctOf q).length] :=
    List.getElem?_eq_getElem hidx
  have hcmem : (correctOf q)[floorRand rc (correctOf q).length] ∈ correctOf q :=
    List.getElem_mem hidx
  have hcCat : (correctOf q)[floorRand rc (correctOf q).length].category =
      Category.correct := by
    have := (List.mem_filter.mp hcmem).2
    simpa using this
  have hcomb : combinedOf q n rc rs1 =
      (correctOf q)[floorRand rc (correctOf q).length] ::
        (shuffle rs1 (othersOf q)).take (n - 1) := by
    unfold combinedOf
    rw [hc]
    rfl
  have htakelen : ((shuffle rs1 (othersOf q)).take (n - 1)).length = n - 1 := by
    rw [List.length_take, shuffle_length]
    omega
  have hcomblen : (combinedOf q n rc rs1).length = n := by
    rw [hcomb]
    simp only [List.length_cons, htakelen]
    omega
  have hshlen : (shuffle rs2 (combinedOf q n rc rs1)).length = n := by
    rw [shuffle_length]
    exact hcomblen
  have htake0 : ∀ a ∈ (shuffle rs1 (othersOf q)).take (n - 1),
      ¬a.category = Category.correct := by
    intro a ha
    have hmem1 : a ∈ shuffle rs1 (othersOf q) :=
      (List.take_sublist (n - 1) _).subset ha
    have hmem2 : a ∈ othersOf q := ((shuffle_perm rs1 _).mem_iff).mp hmem1
    have := (List.mem_filter.mp hmem2).2
    simpa using this
  refine ⟨?_, ?_, ?_⟩
  · unfold presentAnswers
    rw [List.length_map, List.enum_length, hshlen]
  · unfold presentAnswers
    rw [List.countP_map]
    have hpt :
        ((fun a => decide (a.category = Category.correct)) ∘
            (fun p : ℕ × Answer =>
              ({ text := p.2.text, explanation := p.2.explanation,
                 category := p.2.category,
                 label := LABELS.getD p.1 "" } : PresentedAnswer))) =
          (fun p : ℕ × Answer => decide (p.2.category = Category.correct)) := rfl
    rw [hpt]
    have henum :
        (shuffle rs2 (combinedOf q n rc rs1)).enum =
          List.enumFrom 0 (shuffle rs2 (combinedOf q n rc rs1)) := rfl
    rw [henum]
    have h1 : List.countP
        (fun p : ℕ × Answer => decide (p.2.category = Category.correct))
        (List.enumFrom 0 (shuffle rs2 (combinedOf q n rc rs1))) =
        List.countP (fun a => decide (a.category = Category.correct))
          (shuffle rs2 (combinedOf q n rc rs1)) :=
      countP_enumFrom (fun a : Answer => decide (a.category = Category.correct)) _ 0
    rw [h1]
    rw [(shuffle_perm rs2 _).countP_eq]
    rw [hcomb, List.countP_cons]
    have hz : ((shuffle rs1 (othersOf q)).take (n - 1)).countP
        (fun a => decide (a.category = Category.correct)) = 0 := by
      rw [List.countP_eq_zero]
      intro a ha
      simpa using htake0 a ha
    rw [hz]
    simp [hcCat]
  · unfold presentAnswers
    rw [List.map_map]
    have hpt :
        ((fun a : PresentedAnswer => a.label) ∘
            (fun p : ℕ × Answer =>
              ({ text := p.2.text, explanation := p.2.explanation,
                 category := p.2.category,
                 label := LABELS.getD p.1 "" } : PresentedAnswer))) =
          (fun p : ℕ × Answer => LABELS.getD p.1 "") := rfl
    rw [hpt]
    have henum :
        (shuffle rs2 (combinedOf q n rc rs1)).enum =
          List.enumFrom 0 (shuffle rs2 (combinedOf q n rc rs1)) := rfl
    rw [henum]
    rw [map_getD_enumFrom LABELS "" _ 0 (by
      rw [hshlen]
      rcases hn with rfl | rfl | rfl <;> simp [LABELS])]
    rw [hshlen, List.drop_zero]

/-! ## Session lifecycle (`app/src/lib/engine/lifecycle.ts`)

The JS array accesses `xs[i]` and assignments `xs[i] = v` use a signed
index (`currentIndex` can only be driven negative through
`editAnsweredQuestion`, which performs no lower-bound check).  Reading a
negative or out-of-range index yields `undefined` (modelled as `none`);
assigning to one creates a non-index property and leaves the array's
elements unchanged (modelled as the identity). -/

/-- `xs[i]` for a signed index. -/
def listGetI {α : Type} (xs : List α) (i : Int) : Option α :=
  if i < 0 then none else xs[i.toNat]?

/-- `xs[i] = v` for a signed index. -/
def listSetI {α : Type} (xs : List α) (i : Int) (v : α) : List α :=
  if i < 0 then xs else xs.set i.toNat v

/-- `xs[i] = f(xs[i])`, applied only when the slot exists (as the source
guards with `if (current)` or has already established existence). -/
def listUpdateI {α : Type} (xs : List α) (i : Int) (f : α → α) : List α :=
  match listGetI xs i with
  | some v => listSetI xs i (f v)
  | none => xs

/-- One slot of a session (`QuizQuestion`): the underlying question is
represented by its id (the only field the lifecycle reads). -/
structure Slot where
  questionId : String
  presentedAnswers : List PresentedAnswer
  selectedLabel : Option String
  submittedLabel : Option String
  elapsedMs : ℕ
deriving DecidableEq

/-- The `QuizSession` store value (the `config` is engine-opaque: the only
use the lifecycle makes of it, regenerating answers on retake, is modelled
by the retake oracle). -/
structure Session where
  questions : List Slot
  currentIndex : Int
  completed : Bool
deriving DecidableEq

/-- A database side effect: `updateScore(db, qid, points)` or
`recordAnswer(db, sessionId, qid, category, points, elapsedMs)` (the session
id, a fresh UUID per attempt, is not modelled). -/
inductive Ev where
  | score (questionId : String) (points : Int)
  | record (questionId : String) (category : Category) (points : Int)
      (elapsedMs : ℕ)
deriving DecidableEq

/-- The engine's mutable state: the three Svelte stores, the module-level
`frontierIndex`, and the accumulated database events. -/
structure EngineState where
  session : Option Session
  frontier : ℕ
  viewMode : String
  reviewIndex : Option ℕ
  events : List Ev
deriving DecidableEq

/-- The initial state: stores hold `null`/`'config'`, `frontierIndex = 0`. -/
def initState : EngineState :=
  { session := none, frontier := 0, viewMode := "config", reviewIndex := none,
    events := [] }

/-- `snapshotElapsed(session)`: add the elapsed delta to the current slot
(if it exists) of a copy of the question array. -/
def snapshotElapsed (s : Session) (delta : ℕ) : List Slot :=
  listUpdateI s.questions s.currentIndex
    (fun c => { c with elapsedMs := c.elapsedMs + delta })

/-- `startQuiz(config, allQuestions, scores, db)`: the selected questions
with their freshly presented answers arrive as `slots` (id, answers) — in
the source they are produced by `selectQuestions` + `presentAnswers`; every
slot starts unanswered with `elapsedMs = 0`, `currentIndex = 0`,
`frontierIndex = 0`, view `'quiz'`. -/
def startQuiz (st : EngineState)
    (slots : List (String × List PresentedAnswer)) : EngineState :=
  { st with
    frontier := 0,
    session := some ({
      questions := slots.map (fun p =>
        { questionId := p.1, presentedAnswers := p.2,
          selectedLabel := none, submittedLabel := none, elapsedMs := 0 }),
      currentIndex := 0,
      completed := false }),
    viewMode := "quiz" }

/-- The loop body of `finalizeQuiz` for one slot: skip unanswered slots and
unmatched labels, otherwise emit the `updateScore` and `recordAnswer`
effects. -/
def evFor (qq : Slot) : List Ev :=
  match qq.submittedLabel with
  | none => []
  | some lbl =>
    match qq.presentedAnswers.find? (fun a => a.label == lbl) with
    | none => []
    | some answer =>
      [Ev.score qq.questionId (scoreAnswer answer.category),
       Ev.record qq.questionId answer.category (scoreAnswer answer.category)
         qq.elapsedMs]

/-- `finalizeQuiz(questions, db)`: the effects of the scoring pass, in slot
order. -/
def finalizeEvents (questions : List Slot) : List Ev :=
  (questions.map evFor).flatten

/-- `submitAnswer(label, db)`.  Guards: no session, no slot at
`currentIndex`, no presented answer with the given label.  Then: snapshot
elapsed time, stamp the slot, and branch on editing / last-slot /
forward-progress exactly as the source does. -/
def submitAnswer (st : EngineState) (label : String) (delta : ℕ) : EngineState :=
  match st.session with
  | none => st
  | some session =>
    match listGetI session.questions session.currentIndex with
    | none => st
    | some current =>
      match current.presentedAnswers.find? (fun a => a.label == label) with
      | none => st
      | some _ =>
        let updated := listUpdateI (snapshotElapsed session delta)
          session.currentIndex
          (fun c => { c with selectedLabel := some label,
                             submittedLabel := some label })
        if session.currentIndex < (st.frontier : Int) then
          { st with session := some ({ session with
              questions := updated,
              currentIndex := (st.frontier : Int) }) }
        else if (session.questions.length : Int) - 1 ≤ (st.frontier : Int) then
          { st with
            session := some ({ session with questions := updated, completed := true }),
            events := st.events ++ finalizeEvents updated,
            viewMode := "summary" }
        else
          { st with
            frontier := (session.currentIndex + 1).toNat,
            session := some ({ session with
              questions := updated,
              currentIndex := session.currentIndex + 1,
              completed := false }) }

/-- `editAnsweredQuestion(index)`: no-op when there is no session or
`index >= frontierIndex`; otherwise snapshot elapsed time, move
`currentIndex` to `index`, clear `reviewIndex`, view `'quiz'`. -/
def editAnsweredQuestion (st : EngineState) (index : Int) (delta : ℕ) :
    EngineState :=
  match st.session with
  | none => st
  | some session =>
    if (st.frontier : Int) ≤ index then st
    else
      { st with
        session := some ({ session with
          questions := snapshotElapsed session delta,
          currentIndex := index }),
        reviewIndex := none,
        viewMode := "quiz" }

/-- `retakeQuiz(db, allQuestions, scores)`: same questions, freshly
presented answers (supplied per slot by the oracle `pas`), all slots reset,
`frontierIndex = 0`. -/
def retakeQuiz (st : EngineState) (pas : List (List PresentedAnswer)) :
    EngineState :=
  match st.session with
  | none => st
  | some session =>
    { st with
      frontier := 0,
      session := some ({ session with
        questions := session.questions.enum.map (fun p =>
          { questionId := p.2.questionId,
            presentedAnswers := pas.getD p.1 [],
            selectedLabel := none, submittedLabel := none,
            elapsedMs := 0 }),
        currentIndex := 0,
        completed := false }),
      viewMode := "quiz" }

/-- `newQuiz()`: discard the session, view `'nav'`. -/
def newQuiz (st : EngineState) : EngineState :=
  { st with session := none, reviewIndex := none, viewMode := "nav" }

/-- `quitQuiz()` delegates to `newQuiz()`. -/
def quitQuiz (st : EngineState) : EngineState :=
  newQuiz st

/-- `reviewQuestion(index)`. -/
def reviewQuestion (st : EngineState) (index : ℕ) : EngineState :=
  { st with reviewIndex := some index, viewMode := "review" }

/-- `backToSummary()`. -/
def backToSummary (st : EngineState) : EngineState :=
  { st with reviewIndex := none, viewMode := "summary" }

/-- `showAnsweredQuestions()`: guarded on a session with nonzero frontier;
snapshots elapsed time only. -/
def showAnsweredQuestions (st : EngineState) (delta : ℕ) : EngineState :=
  match st.session with
  | none => st
  | some session =>
    if st.frontier = 0 then st
    else
      { st with
        session := some ({ session with questions := snapshotElapsed session delta }),
        reviewIndex := none,
        viewMode := "quiz-answered" }

/-- `backToQuiz()`: restore `currentIndex` to the frontier (when a session
exists); clear `reviewIndex`, view `'quiz'` regardless. -/
def backToQuiz (st : EngineState) : EngineState :=
  match st.session with
  | none => { st with reviewIndex := none, viewMode := "quiz" }
  | some session =>
    { st with
      session := some ({ session with currentIndex := (st.frontier : Int) }),
      reviewIndex := none,
      viewMode := "quiz" }

/-- `reviewPrev()`. -/
def reviewPrev (st : EngineState) : EngineState :=
  match st.reviewIndex with
  | some idx => if 0 < idx then { st with reviewIndex := some (idx - 1) } else st
  | none => st

/-- `reviewNext()`. -/
def reviewNext (st : EngineState) : EngineState :=
  match st.session, st.reviewIndex with
  | some session, some idx =>
    if (idx : Int) < (session.questions.length : Int) - 1 then
      { st with reviewIndex := some (idx + 1) }
    else st
  | _, _ => st

/-- One user-triggered lifecycle operation, with its oracle data (fresh
presented answers for start/retake, elapsed-time deltas for operations that
snapshot the clock). -/
inductive Op where
  | start (slots : List (String × List PresentedAnswer))
  | submit (label : String) (delta : ℕ)
  | edit (index : Int) (delta : ℕ)
  | retake (pas : List (List PresentedAnswer))
  | newQuiz
  | quit
  | backToQuiz
  | showAnswered (delta : ℕ)
  | review (index : ℕ)
  | backToSummary
  | reviewPrev
  | reviewNext
deriving DecidableEq

/-- The step function of the lifecycle state machine. -/
def step (st : EngineState) : Op → EngineState
  | Op.start slots => startQuiz st slots
  | Op.submit label delta => submitAnswer st label delta
  | Op.edit index delta => editAnsweredQuestion st index delta
  | Op.retake pas => retakeQuiz st pas
  | Op.newQuiz => newQuiz st
  | Op.quit => quitQuiz st
  | Op.backToQuiz => backToQuiz st
  | Op.showAnswered delta => showAnsweredQuestions st delta
  | Op.review index => reviewQuestion st index
  | Op.backToSummary => backToSummary st
  | Op.reviewPrev => reviewPrev st
  | Op.reviewNext => reviewNext st

/-- A run of the engine from a state through a sequence of operations. -/
def runOps (st : EngineState) (ops : List Op) : EngineState :=
  ops.foldl step st

/-! ### The frontier invariant -/

/-- Whether the slot at index `j` has a recorded answer. -/
def submittedAt (qs : List Slot) (j : ℕ) : Bool :=
  match qs[j]? with
  | some slot => slot.submittedLabel.isSome
  | none => false

theorem listGetI_eq_some {α : Type} {xs : List α} {i : Int} {v : α}
    (h : listGetI xs i = some v) :
    0 ≤ i ∧ i.toNat < xs.length ∧ xs[i.toNat]? = some v := by
  unfold listGetI at h
  split at h
  · exact absurd h (by simp)
  · refine ⟨by omega, ?_, h⟩
    obtain ⟨hlt, -⟩ := List.getElem?_eq_some.mp h
    exact hlt

theorem length_listSetI {α : Type} (xs : List α) (i : Int) (v : α) :
    (listSetI xs i v).length = xs.length := by
  unfold listSetI
  split
  · rfl
  · exact List.length_set xs i.toNat v

theorem length_listUpdateI {α : Type} (xs : List α) (i : Int) (f : α → α) :
    (listUpdateI xs i f).length = xs.length := by
  unfold listUpdateI
  cases listGetI xs i with
  | none => rfl
  | some v => exact length_listSetI xs i (f v)

theorem length_snapshotElapsed (s : Session) (delta : ℕ) :
    (snapshotElapsed s delta).length = s.questions.length :=
  length_listUpdateI _ _ _

theorem submittedAt_listUpdateI_of_label_eq (xs : List Slot) (i : Int)
    (f : Slot → Slot) (hf : ∀ a, (f a).submittedLabel = a.submittedLabel)
    (j : ℕ) : submittedAt (listUpdateI xs i f) j = submittedAt xs j := by
  unfold listUpdateI
  cases hg : listGetI xs i with
  | none => rfl
  | some v =>
    obtain ⟨h0, hlt, hget⟩ := listGetI_eq_some hg
    unfold listSetI submittedAt
    dsimp only
    rw [if_neg (by omega : ¬i < 0)]
    rw [List.getElem?_set]
    by_cases hij : i.toNat = j
    · subst hij
      rw [if_pos rfl, if_pos hlt, hget]
      simp [hf v]
    · rw [if_neg hij]

theorem submittedAt_listUpdateI_ne {xs : List Slot} {i : Int}
    {f : Slot → Slot} {j : ℕ} (hij : j ≠ i.toNat) :
    submittedAt (listUpdateI xs i f) j = submittedAt xs j := by
  unfold listUpdateI
  cases hg : listGetI xs i with
  | none => rfl
  | some v =>
    obtain ⟨h0, hlt, hget⟩ := listGetI_eq_some hg
    unfold listSetI submittedAt
    dsimp only
    rw [if_neg (by omega : ¬i < 0)]
    rw [List.getElem?_set, if_neg (fun hh => hij hh.symm)]

theorem submittedAt_listUpdateI_self {xs : List Slot} {i : Int}
    {f : Slot → Slot} {v : Slot} (hg : listGetI xs i = some v)
    (hsome : ((f v).submittedLabel).isSome = true) :
    submittedAt (listUpdateI xs i f) i.toNat = true := by
  unfold listUpdateI
  rw [hg]
  obtain ⟨h0, hlt, hget⟩ := listGetI_eq_some hg
  unfold listSetI submittedAt
  dsimp only
  rw [if_neg (by omega : ¬i < 0)]
  rw [List.getElem?_set, if_pos rfl, if_pos hlt]
  exact hsome

theorem mem_listUpdateI {xs : List Slot} {i : Int} {f : Slot → Slot}
    {b : Slot} (hb : b ∈ listUpdateI xs i f) :
    b ∈ xs ∨ ∃ a, a ∈ xs ∧ b = f a := by
  unfold listUpdateI at hb
  cases hg : listGetI xs i with
  | none =>
    rw [hg] at hb
    exact Or.inl hb
  | some v =>
    rw [hg] at hb
    dsimp only at hb
    obtain ⟨h0, hlt, hget⟩ := listGetI_eq_some hg
    unfold listSetI at hb
    rw [if_neg (by omega : ¬i < 0)] at hb
    rcases List.mem_or_eq_of_mem_set hb with hmem | heq
    · exact Or.inl hmem
    · exact Or.inr ⟨v, List.getElem?_mem hget, heq⟩

/-- The invariant of an active session: a slot is answered exactly when its
index is below the frontier, the current index never exceeds the frontier,
and the frontier never exceeds the session length. -/
def ActiveInv (qs : List Slot) (f : ℕ) (ci : Int) : Prop :=
  (∀ j : ℕ, submittedAt qs j = decide (j < f)) ∧ ci ≤ (f : Int) ∧ f ≤ qs.length

/-- The invariant of a completed session: every slot is answered and the
frontier variable rests at `length - 1` or above (the source leaves it
there rather than advancing it past the last slot). -/
def CompletedInv (qs : List Slot) (f : ℕ) : Prop :=
  (∀ slot ∈ qs, slot.submittedLabel.isSome = true) ∧ qs.length ≤ f + 1

/-- The state invariant preserved by every lifecycle operation. -/
def EngineInv (st : EngineState) : Prop :=
  ∀ s, st.session = some s →
    (s.completed = true → CompletedInv s.questions st.frontier) ∧
    (s.completed = false → ActiveInv s.questions st.frontier s.currentIndex)

theorem listGetI_listUpdateI_self {α : Type} (xs : List α) (i : Int)
    (g : α → α) :
    listGetI (listUpdateI xs i g) i = (listGetI xs i).map g := by
  cases hg : listGetI xs i with
  | none =>
    unfold listUpdateI
    rw [hg]
    simp [hg]
  | some v =>
    obtain ⟨h0, hlt, hget⟩ := listGetI_eq_some hg
    unfold listUpdateI
    rw [hg]
    unfold listSetI listGetI
    dsimp only
    rw [if_neg (by omega : ¬i < 0), if_neg (by omega : ¬i < 0)]
    rw [List.getElem?_set, if_pos rfl, if_pos hlt]
    rfl

theorem engineInv_initState : EngineInv initState := by
  intro s hs
  simp [initState] at hs

theorem engineInv_startQuiz (st : EngineState)
    (slots : List (String × List PresentedAnswer)) :
    EngineInv (startQuiz st slots) := by
  intro s hs
  simp only [startQuiz, Option.some.injEq] at hs
  subst hs
  constructor
  · intro hc
    simp at hc
  · intro _
    refine ⟨?_, by simp [startQuiz], by simp [startQuiz]⟩
    intro j
    unfold submittedAt
    rw [List.getElem?_map]
    cases slots[j]? <;> simp [startQuiz]

theorem engineInv_retakeQuiz (st : EngineState)
    (pas : List (List PresentedAnswer)) (h : EngineInv st) :
    EngineInv (retakeQuiz st pas) := by
  unfold retakeQuiz
  cases hs : st.session with
  | none => exact h
  | some session =>
    intro s hsEq
    simp only [Option.some.injEq] at hsEq
    subst hsEq
    constructor
    · intro hc
      simp at hc
    · intro _
      refine ⟨?_, by simp, by simp⟩
      intro j
      unfold submittedAt
      rw [List.getElem?_map]
      cases (session.questions.enum)[j]? <;> simp

theorem engineInv_newQuiz (st : EngineState) : EngineInv (newQuiz st) := by
  intro s hs
  simp [newQuiz] at hs

theorem engineInv_quitQuiz (st : EngineState) : EngineInv (quitQuiz st) :=
  engineInv_newQuiz st

theorem engineInv_reviewQuestion (st : EngineState) (index : ℕ)
    (h : EngineInv st) : EngineInv (reviewQuestion st index) := by
  intro s hs
  exact h s hs

theorem engineInv_backToSummary (st : EngineState) (h : EngineInv st) :
    EngineInv (backToSummary st) := by
  intro s hs
  exact h s hs

theorem engineInv_reviewPrev (st : EngineState) (h : EngineInv st) :
    EngineInv (reviewPrev st) := by
  unfold reviewPrev
  cases st.reviewIndex with
  | none => exact h
  | some idx =>
    dsimp only
    split
    · intro s hs
      exact h s hs
    · exact h

theorem engineInv_reviewNext (st : EngineState) (h : EngineInv st) :
    EngineInv (reviewNext st) := by
  unfold reviewNext
  cases hs : st.session with
  | none => exact h
  | some session =>
    cases st.reviewIndex with
    | none => exact h
    | some idx =>
      dsimp only
      split
      · intro s hsEq
        exact h s (hs.trans hsEq)
      · exact h

theorem engineInv_backToQuiz (st : EngineState) (h : EngineInv st) :
    EngineInv (backToQuiz st) := by
  unfold backToQuiz
  cases hs : st.session with
  | none =>
    intro s hsEq
    exact Option.noConfusion hsEq
  | some session =>
    intro s hsEq
    simp only [Option.some.injEq] at hsEq
    subst hsEq
    have hold := h session hs
    constructor
    · intro hc
      exact hold.1 hc
    · intro hc
      obtain ⟨hiff, hci, hf⟩ := hold.2 hc
      exact ⟨hiff, le_refl _, hf⟩

theorem engineInv_showAnswered (st : EngineState) (delta : ℕ)
    (h : EngineInv st) : EngineInv (showAnsweredQuestions st delta) := by
  unfold showAnsweredQuestions
  cases hs : st.session with
  | none => exact h
  | some session =>
    dsimp only
    split
    · exact h
    · intro s hsEq
      simp only [Option.some.injEq] at hsEq
      subst hsEq
      have hold := h session hs
      constructor
      · intro hc
        obtain ⟨hall, hlen⟩ := hold.1 hc
        constructor
        · intro slot hmem
          rcases mem_listUpdateI hmem with hmem2 | ⟨a, ha, rfl⟩
          · exact hall slot hmem2
          · exact hall a ha
        · rw [length_snapshotElapsed]
          exact hlen
      · intro hc
        obtain ⟨hiff, hci, hf⟩ := hold.2 hc
        refine ⟨?_, hci, ?_⟩
        · intro j
          unfold snapshotElapsed
          rw [submittedAt_listUpdateI_of_label_eq session.questions
            session.currentIndex
            (fun c => { c with elapsedMs := c.elapsedMs + delta })
            (fun a => rfl) j]
          exact hiff j
        · rw [length_snapshotElapsed]
          exact hf

theorem engineInv_edit (st : EngineState) (index : Int) (delta : ℕ)
    (h : EngineInv st) : EngineInv (editAnsweredQuestion st index delta) := by
  unfold editAnsweredQuestion
  cases hs : st.session with
  | none => exact h
  | some session =>
    dsimp only
    split
    · exact h
    · rename_i hlt
      intro s hsEq
      simp only [Option.some.injEq] at hsEq
      subst hsEq
      have hold := h session hs
      constructor
      · intro hc
        obtain ⟨hall, hlen⟩ := hold.1 hc
        constructor
        · intro slot hmem
          rcases mem_listUpdateI hmem with hmem2 | ⟨a, ha, rfl⟩
          · exact hall slot hmem2
          · exact hall a ha
        · rw [length_snapshotElapsed]
          exact hlen
      · intro hc
        obtain ⟨hiff, hci, hf⟩ := hold.2 hc
        refine ⟨?_, ?_, ?_⟩
        · intro j
          unfold snapshotElapsed
          rw [submittedAt_listUpdateI_of_label_eq session.questions
            session.currentIndex
            (fun c => { c with elapsedMs := c.elapsedMs + delta })
            (fun a => rfl) j]
          exact hiff j
        · show index ≤ (st.frontier : Int)
          omega
        · rw [length_snapshotElapsed]
          exact hf

theorem engineInv_submit (st : EngineState) (label : String) (delta : ℕ)
    (h : EngineInv st) : EngineInv (submitAnswer st label delta) := by
  unfold submitAnswer
  cases hs : st.session with
  | none => exact h
  | some session =>
    dsimp only
    cases hg : listGetI session.questions session.currentIndex with
    | none => exact h
    | some current =>
      dsimp only
      cases hfind : current.presentedAnswers.find? (fun a => a.label == label) with
      | none => exact h
      | some pa =>
        dsimp only
        obtain ⟨hci0, hciLt, hciGet⟩ := listGetI_eq_some hg
        have hold := h session hs
        have hsnapGet : listGetI (snapshotElapsed session delta)
            session.currentIndex =
            some { current with elapsedMs := current.elapsedMs + delta } := by
          unfold snapshotElapsed
          rw [listGetI_listUpdateI_self, hg]
          rfl
        have hlen_upd :
            (listUpdateI (snapshotElapsed session delta) session.currentIndex
              (fun c => { c with selectedLabel := some label,
                                 submittedLabel := some label })).length =
              session.questions.length := by
          rw [length_listUpdateI, length_snapshotElapsed]
        have hsub_ne : ∀ j : ℕ, j ≠ session.currentIndex.toNat →
            submittedAt (listUpdateI (snapshotElapsed session delta)
              session.currentIndex
              (fun c => { c with selectedLabel := some label,
                                 submittedLabel := some label })) j =
              submittedAt session.questions j := by
          intro j hj
          rw [submittedAt_listUpdateI_ne hj]
          unfold snapshotElapsed
          rw [submittedAt_listUpdateI_of_label_eq session.questions
            session.currentIndex
            (fun c => { c with elapsedMs := c.elapsedMs + delta })
            (fun a => rfl) j]
        have hsub_self :
            submittedAt (listUpdateI (snapshotElapsed session delta)
              session.currentIndex
              (fun c => { c with selectedLabel := some label,
                                 submittedLabel := some label }))
              session.currentIndex.toNat = true :=
          submittedAt_listUpdateI_self hsnapGet rfl
        have hall_upd : (∀ slot ∈ session.questions,
              slot.submittedLabel.isSome = true) →
            ∀ slot ∈ listUpdateI (snapshotElapsed session delta)
              session.currentIndex
              (fun c => { c with selectedLabel := some label,
                                 submittedLabel := some label }),
              slot.submittedLabel.isSome = true := by
          intro hall slot hmem
          rcases mem_listUpdateI hmem with hmem2 | ⟨a, ha, rfl⟩
          · rcases mem_listUpdateI hmem2 with hmem3 | ⟨a, ha, rfl⟩
            · exact hall slot hmem3
            · exact hall a ha
          · rfl
        split
        · rename_i hEdit
          intro s hsEq
          simp only [Option.some.injEq] at hsEq
          subst hsEq
          constructor
          · intro hc
            obtain ⟨hall, hlen⟩ := hold.1 hc
            refine ⟨hall_upd hall, ?_⟩
            rw [hlen_upd]
            exact hlen
          · intro hc
            obtain ⟨hiff, hci, hf⟩ := hold.2 hc
            refine ⟨?_, ?_, ?_⟩
            · intro j
              by_cases hj : j = session.currentIndex.toNat
              · subst hj
                rw [hsub_self]
                have hjf : session.currentIndex.toNat < st.frontier := by omega
                simp [hjf]
              · rw [hsub_ne j hj]
                exact hiff j
            · show (st.frontier : Int) ≤ (st.frontier : Int)
              exact le_refl _
            · rw [hlen_upd]
              exact hf
        · rename_i hNotEdit
          split
          · rename_i hLast
            intro s hsEq
            simp only [Option.some.injEq] at hsEq
            subst hsEq
            constructor
            · intro _
              constructor
              · cases hcomp : session.completed with
                | true => exact hall_upd (hold.1 hcomp).1
                | false =>
                  obtain ⟨hiff, hci, hf⟩ := hold.2 hcomp
                  have hcif : session.currentIndex.toNat = st.frontier := by
                    omega
                  intro slot hmem
                  obtain ⟨j, hj, hjEq⟩ := List.mem_iff_getElem.mp hmem
                  have hsubj : submittedAt (listUpdateI
                      (snapshotElapsed session delta) session.currentIndex
                      (fun c => { c with selectedLabel := some label,
                                         submittedLabel := some label })) j =
                      slot.submittedLabel.isSome := by
                    unfold submittedAt
                    rw [List.getElem?_eq_getElem hj, hjEq]
                  rw [← hsubj]
                  by_cases hjc : j = session.currentIndex.toNat
                  · subst hjc
                    exact hsub_self
                  · rw [hsub_ne j hjc, hiff j]
                    have hjlen : j < session.questions.length := by
                      rw [← hlen_upd]
                      exact hj
                    have hjf : j < st.frontier := by omega
                    simp [hjf]
              · dsimp only
                rw [hlen_upd]
                omega
            · intro hc
              simp at hc
          · rename_i hNotLast
            intro s hsEq
            simp only [Option.some.injEq] at hsEq
            subst hsEq
            constructor
            · intro hc
              simp at hc
            · intro _
              cases hcomp : session.completed with
              | true =>
                obtain ⟨hall, hlen⟩ := hold.1 hcomp
                exfalso
                omega
              | false =>
                obtain ⟨hiff, hci, hf⟩ := hold.2 hcomp
                have hcif : session.currentIndex.toNat = st.frontier := by omega
                refine ⟨?_, ?_, ?_⟩
                · intro j
                  by_cases hj : j = session.currentIndex.toNat
                  · subst hj
                    rw [hsub_self]
                    have hjf : session.currentIndex.toNat <
                        (session.currentIndex + 1).toNat := by omega
                    simp [hjf]
                  · rw [hsub_ne j hj, hiff j]
                    rw [decide_eq_decide]
                    dsimp only
                    omega
                · show session.currentIndex + 1 ≤
                    (((session.currentIndex + 1).toNat : ℕ) : Int)
                  omega
                · dsimp only
                  rw [hlen_upd]
                  omega

theorem engineInv_step (st : EngineState) (op : Op) (h : EngineInv st) :
    EngineInv (step st op) := by
  cases op with
  | start slots => exact engineInv_startQuiz st slots
  | submit label delta => exact engineInv_submit st label delta h
  | edit index delta => exact engineInv_edit st index delta h
  | retake pas => exact engineInv_retakeQuiz st pas h
  | newQuiz => exact engineInv_newQuiz st
  | quit => exact engineInv_quitQuiz st
  | backToQuiz => exact engineInv_backToQuiz st h
  | showAnswered delta => exact engineInv_showAnswered st delta h
  | review index => exact engineInv_reviewQuestion st index h
  | backToSummary => exact engineInv_backToSummary st h
  | reviewPrev => exact engineInv_reviewPrev st h
  | reviewNext => exact engineInv_reviewNext st h

theorem engineInv_runOps :
    ∀ (ops : List Op) (st : EngineState), EngineInv st →
      EngineInv (runOps st ops)
  | [], _, h => h
  | op :: ops, st, h =>
    engineInv_runOps ops (step st op) (engineInv_step st op h)

/-! ## Claim theorems -/

/-- A presented answer with label `"a"`, as `presentAnswers` yields for the
first position. -/
def paA : PresentedAnswer :=
  { text := "t", explanation := "e", category := Category.correct,
    label := "a" }

/-- Number of `updateScore` effects recorded for a given question id. -/
def scoreEvCount (events : List Ev) (qid : String) : ℕ :=
  events.countP (fun e =>
    match e with
    | Ev.score q _ => q == qid
    | Ev.record _ _ _ _ => false)

/-- Claim C1: scoring is NOT exactly-once per slot over all operation sequences:
starting a one-question session and submitting a valid label twice (the
second submission hitting the already-completed session) runs the finalize
pass twice — the slot's score is mutated once after the first submit and
twice after the second, because `submitAnswer` never checks `completed`. -/
theorem submit_after_completion_scores_twice :
    scoreEvCount (runOps initState
      [Op.start [("q1", [paA])], Op.submit "a" 0]).events "q1" = 1 ∧
    scoreEvCount (runOps initState
      [Op.start [("q1", [paA])], Op.submit "a" 0, Op.submit "a" 0]).events
      "q1" = 2 := by decide

/-- Claim C2: `submitAnswer` on an already-completed session is NOT a no-op: in
the completed one-question session a further `submitAnswer("a")` changes the
state (it re-runs `finalizeQuiz`, appending a second score mutation and a
second session-answer record). -/
theorem submit_on_completed_session_not_noop :
    ((runOps initState [Op.start [("q1", [paA])], Op.submit "a" 0]).session.map
      (fun s => s.completed)) = some true ∧
    submitAnswer (runOps initState [Op.start [("q1", [paA])], Op.submit "a" 0])
      "a" 0 ≠
      runOps initState [Op.start [("q1", [paA])], Op.submit "a" 0] := by decide

/-- Claim C3, counterexample: in the reachable completed state of a one-question
session, slot 0 has a non-null `submittedLabel` while `frontierIndex` is
still 0 (the source never advances the frontier past the last slot), so
`submittedLabel ≠ null ↔ index < frontier` fails at index 0. -/
theorem completed_state_breaks_frontier_iff :
    ((runOps initState [Op.start [("q1", [paA])], Op.submit "a" 0]).session.map
      (fun s => submittedAt s.questions 0)) = some true ∧
    (runOps initState [Op.start [("q1", [paA])], Op.submit "a" 0]).frontier
      = 0 := by decide

/-- Claim C3 (amended): in every reachable state whose session is active (not
completed), a slot's `submittedLabel` is non-null exactly when its index is
below the frontier; the equivalence holds for every slot index and every
sequence of lifecycle operations. -/
theorem active_submitted_iff_below_frontier (ops : List Op) (s : Session)
    (h : (runOps initState ops).session = some s) (hc : s.completed = false)
    (j : ℕ) :
    submittedAt s.questions j = decide (j < (runOps initState ops).frontier) :=
  ((engineInv_runOps ops initState engineInv_initState s h).2 hc).1 j

/-- The single slot of a freshly started one-question quiz. -/
def slotStart1 : Slot :=
  { questionId := "q1", presentedAnswers := [paA], selectedLabel := none,
    submittedLabel := none, elapsedMs := 0 }

/-- The session produced by starting a one-question quiz. -/
def sessionStart1 : Session :=
  { questions := [slotStart1], currentIndex := 0, completed := false }

theorem active_submitted_iff_below_frontier_witness :
    (runOps initState [Op.start [("q1", [paA])]]).session = some sessionStart1 ∧
    sessionStart1.completed = false ∧
    submittedAt sessionStart1.questions 0 =
      decide (0 < (runOps initState [Op.start [("q1", [paA])]]).frontier) :=
  ⟨by decide, by decide,
    active_submitted_iff_below_frontier [Op.start [("q1", [paA])]]
      sessionStart1 (by decide) (by decide) 0⟩

/-- A candidate question absent from the score snapshot. -/
def qAbsent : Question := { id := "q2", tags := [], answers := [] }

/-- Claim C4, counterexample: with the snapshot `[{q1, -1}]` (all scores negative)
and the candidate `q2` absent from it, `selectQuestions` assigns weight
`maxScore - 0 + 1 = 0 < 1`: the claimed bound `weight ≥ 1` fails. -/
theorem weight_not_ge_one_counterexample :
    selPool [qAbsent] [{ questionId := "q1", cumulativeScore := -1 }] [] =
      [(qAbsent, 0)] ∧
    ¬(1 ≤ weightOf [{ questionId := "q1", cumulativeScore := -1 }] qAbsent) := by
  decide

theorem weightOf_ge_one_witness :
    ((∃ s ∈ ([] : List QuestionScore), s.questionId = qAbsent.id) ∨
      0 ≤ maxScoreOf []) ∧
    1 ≤ weightOf [] qAbsent :=
  ⟨Or.inr (by decide), weightOf_ge_one [] qAbsent (Or.inr (by decide))⟩

/-- A question passing the upstream validation (≥ 5 answers, ≥ 1 per
category) with two `correct` answers: only three distractors exist. -/
def qTwoCorrect : Question :=
  { id := "qc6", tags := [],
    answers := [{ text := "c1", explanation := "e", category := Category.correct },
      { text := "c2", explanation := "e", category := Category.correct },
      { text := "p", explanation := "e", category := Category.partiallyCorrect },
      { text := "i", explanation := "e", category := Category.incorrect },
      { text := "r", explanation := "e", category := Category.ridiculous }] }

/-- Claim C6, counterexample: `qTwoCorrect` satisfies the claimed precondition for
`answerCount = 5` (five answers in total, at least one per category), yet
`presentAnswers` returns only 4 answers — one correct plus the three
available distractors — so `output length = answerCount` fails. -/
theorem presentAnswers_length_counterexample :
    qTwoCorrect.answers.length = 5 ∧
    (∃ a ∈ qTwoCorrect.answers, a.category = Category.correct) ∧
    (∃ a ∈ qTwoCorrect.answers, a.category = Category.partiallyCorrect) ∧
    (∃ a ∈ qTwoCorrect.answers, a.category = Category.incorrect) ∧
    (∃ a ∈ qTwoCorrect.answers, a.category = Category.ridiculous) ∧
    (presentAnswers qTwoCorrect 5 0 [] []).length = 4 := by
  refine ⟨by decide, by decide, by decide, by decide, by decide, ?_⟩
  norm_num [presentAnswers, combinedOf, correctOf, othersOf, shuffle, fyAux,
    floorRand, LABELS, qTwoCorrect]
  decide

/-- A question with one `correct` answer and three distractors. -/
def qOneCorrect : Question :=
  { id := "qw6", tags := [],
    answers := [{ text := "c", explanation := "e", category := Category.correct },
      { text := "p", explanation := "e", category := Category.partiallyCorrect },
      { text := "i", explanation := "e", category := Category.incorrect },
      { text := "r", explanation := "e", category := Category.ridiculous }] }

theorem presentAnswers_spec_witness :
    ((4 : ℕ) = 3 ∨ (4 : ℕ) = 4 ∨ (4 : ℕ) = 5) ∧
    (0 : ℚ) ≤ 0 ∧ ((0 : ℚ) < 1) ∧
    correctOf qOneCorrect ≠ [] ∧
    4 - 1 ≤ (othersOf qOneCorrect).length ∧
    ((presentAnswers qOneCorrect 4 0 [] []).length = 4 ∧
      (presentAnswers qOneCorrect 4 0 [] []).countP
        (fun a => decide (a.category = Category.correct)) = 1 ∧
      (presentAnswers qOneCorrect 4 0 [] []).map (fun a => a.label) =
        LABELS.take 4) :=
  ⟨Or.inr (Or.inl rfl), by decide, by decide, by decide, by decide,
    presentAnswers_spec qOneCorrect 4 0 [] [] (Or.inr (Or.inl rfl))
      (by decide) (by decide) (by decide) (by decide)⟩

/-- Claim C7: for every non-empty list of positive weights and every value of the
internal random draw, `weightedRandomIndex` returns an in-range index (the
last index is the boundary fallback). -/
theorem weightedRandomIndex_in_range (ws : List ℚ) (r : ℚ)
    (hne : ws ≠ []) (hpos : ∀ w ∈ ws, 0 < w) :
    weightedRandomIndex r ws < ws.length :=
  weightedRandomIndex_lt r ws hne

theorem weightedRandomIndex_in_range_witness :
    ([(1 : ℚ)] ≠ []) ∧ (∀ w ∈ [(1 : ℚ)], 0 < w) ∧
    weightedRandomIndex (1 / 2) [(1 : ℚ)] < [(1 : ℚ)].length :=
  ⟨by decide, by decide,
    weightedRandomIndex_in_range [(1 : ℚ)] (1 / 2) (by decide) (by decide)⟩

/-- Claim C8, counterexample: a pool that itself contains the same question twice
defeats "no duplicates": drawing removes one copy, and the other is drawn
next, so `selectQuestions([q,q], [], 2)` returns `[q, q]`. -/
theorem selectQuestions_duplicate_counterexample :
    selectQuestions [qAbsent, qAbsent] [] 2 [] [] = [qAbsent, qAbsent] ∧
    ¬(selectQuestions [qAbsent, qAbsent] [] 2 [] []).Nodup := by
  have h : selectQuestions [qAbsent, qAbsent] [] 2 [] [] =
      [qAbsent, qAbsent] := by
    norm_num [selectQuestions, selPool, tagFilter, weightOf, scoreOf,
      maxScoreOf, selAux, weightedRandomIndex, wriAux]
  refine ⟨h, ?_⟩
  rw [h]
  decide

/-- Claim C8 (amended): for every pool, snapshot, requested count and random
outcome, the selection has length `min(count, |filtered pool|)`, and it has
no duplicates whenever the (tag-filtered) input pool has none — sampling
without replacement. -/
theorem selectQuestions_card_nodup (questions : List Question)
    (scores : List QuestionScore) (count : ℕ) (selectedTags : List String)
    (rs : List ℚ) :
    (selectQuestions questions scores count selectedTags rs).length =
      min count (tagFilter questions selectedTags).length ∧
    ((tagFilter questions selectedTags).Nodup →
      (selectQuestions questions scores count selectedTags rs).Nodup) :=
  ⟨selectQuestions_length questions scores count selectedTags rs,
    fun h => selectQuestions_nodup questions scores count selectedTags rs h⟩

/-- Two distinct candidate questions. -/
def qA : Question := { id := "qa", tags := [], answers := [] }

/-- Another distinct candidate question. -/
def qB : Question := { id := "qb", tags := [], answers := [] }

theorem selectQuestions_card_nodup_witness :
    (selectQuestions [qA, qB] [] 3 [] []).length =
      min 3 (tagFilter [qA, qB] []).length ∧
    (tagFilter [qA, qB] []).Nodup ∧
    (selectQuestions [qA, qB] [] 3 [] []).Nodup :=
  ⟨(selectQuestions_card_nodup [qA, qB] [] 3 [] []).1, by decide,
    (selectQuestions_card_nodup [qA, qB] [] 3 [] []).2 (by decide)⟩

/-- Claim C9: the state-passing embedding of `selectQuestions` returns its
argument arrays unchanged — sampling without replacement happens on the
internally constructed pool only — and computes the same selection as the
pure function. -/
theorem selectQuestionsSt_frame (env : SelEnv) (count : ℕ)
    (selectedTags : List String) (rs : List ℚ) :
    (selectQuestionsSt env count selectedTags rs).2 = env ∧
    (selectQuestionsSt env count selectedTags rs).1 =
      selectQuestions env.questions env.scores count selectedTags rs :=
  ⟨selLoopSt_env env _ _ rs, selLoopSt_fst env _ _ rs⟩

/-- Claim C5, counterexample: after answering slot 0 of a two-question session the
frontier is 1; `editAnsweredQuestion(-1)` is NOT ignored — it sets
`currentIndex` to `-1` (the guard only checks `index >= frontierIndex`). -/
theorem edit_negative_index_mutates :
    ((runOps initState
      [Op.start [("q1", [paA]), ("q2", [paA])], Op.submit "a" 0]).session.map
        (fun s => s.currentIndex)) = some 1 ∧
    ((editAnsweredQuestion
      (runOps initState
        [Op.start [("q1", [paA]), ("q2", [paA])], Op.submit "a" 0])
      (-1) 0).session.map (fun s => s.currentIndex)) = some (-1) := by decide

/-- Claim C5 (amended): `editAnsweredQuestion(index)` is a no-op exactly under the
source's guard — no active session or `index ≥ frontier`; a negative index
passes the guard (it is `< frontier` whenever `frontier > 0` or `frontier = 0`)
and becomes the current index. -/
theorem editAnsweredQuestion_noop_of_guard (st : EngineState) (index : Int)
    (delta : ℕ) (h : st.session = none ∨ (st.frontier : Int) ≤ index) :
    editAnsweredQuestion st index delta = st := by
  unfold editAnsweredQuestion
  cases hs : st.session with
  | none => rfl
  | some session =>
    dsimp only
    rcases h with hnone | hle
    · rw [hs] at hnone
      exact Option.noConfusion hnone
    · rw [if_pos hle]

theorem editAnsweredQuestion_noop_of_guard_witness :
    ((runOps initState [Op.start [("q1", [paA])]]).session = none ∨
      ((runOps initState [Op.start [("q1", [paA])]]).frontier : Int) ≤ 0) ∧
    editAnsweredQuestion (runOps initState [Op.start [("q1", [paA])]]) 0 5 =
      runOps initState [Op.start [("q1", [paA])]] :=
  ⟨Or.inr (by decide),
    editAnsweredQuestion_noop_of_guard _ 0 5 (Or.inr (by decide))⟩

/-- An empty tag-filtered pool yields an empty selection, hence a session
with an empty question list. -/
theorem selectQuestions_nil (scores : List QuestionScore) (count : ℕ)
    (selectedTags : List String) (rs : List ℚ) :
    selectQuestions [] scores count selectedTags rs = [] := by
  have hpool : selPool [] scores selectedTags = [] := by
    unfold selPool tagFilter
    split <;> rfl
  unfold selectQuestions
  rw [hpool]
  simp only [List.length_nil, Nat.min_zero]
  rfl

/-- Claim C10: whenever the active session's question list is empty (as
`startQuiz` produces for an empty selection pool), `submitAnswer` is a
no-op for every label and every elapsed time: the slot lookup at
`currentIndex` yields nothing and the state — session, frontier, view,
events — is returned unchanged. -/
theorem submitAnswer_noop_on_empty_questions (st : EngineState) (s : Session)
    (hs : st.session = some s) (hq : s.questions = []) (label : String)
    (delta : ℕ) : submitAnswer st label delta = st := by
  unfold submitAnswer
  rw [hs]
  dsimp only
  have hget : listGetI s.questions s.currentIndex = none := by
    unfold listGetI
    rw [hq]
    split
    · rfl
    · simp
  rw [hget]

theorem submitAnswer_noop_on_empty_questions_witness :
    (startQuiz initState []).session =
      some { questions := [], currentIndex := 0, completed := false } ∧
    ({ questions := [], currentIndex := 0, completed := false } : Session).questions = [] ∧
    submitAnswer (startQuiz initState []) "a" 7 = startQuiz initState [] :=
  ⟨by decide, by decide,
    submitAnswer_noop_on_empty_questions (startQuiz initState [])
      { questions := [], currentIndex := 0, completed := false }
      (by decide) (by decide) "a" 7⟩
